import Mathlib

/-!
Verification of the expression-IR core of `dask_expr` (`_core.py`) and the
resample construction check (`_resample.py`).

The embedding models the immutable expression IR:

* A Python `Expr` instance is a type tag (its class name) together with an
  ordered operand list; operands are either further `Expr` nodes or opaque
  literal values.  We model both in one inductive: `Expr.node tag operands`
  is an expression node, `Expr.lit v` is a literal operand.  Literals are
  drawn from a representative universe (`Lit`: Python `int`, `bool`, `str`),
  which is the fragment the verified claims quantify over.  The `Fused`
  special case of `Expr.substitute` (list-of-`Expr` operands) lies outside
  this fragment and is not modelled; no claim under verification involves it.

* `Expr._name` (`_core.py` lines 393-397) is
  `funcname(type(self)).lower() + "-" + _tokenize_deterministic(*self.operands)`,
  a deterministic content hash in which literal operands hash by value and
  node operands hash by their own identity.  We idealise the hash as exactly
  injective (the spec: distinct operands collide only "with overwhelming
  probability") and represent the identity string by its pre-image under the
  hash: the canonical tree `Expr.name e`, whose root tag is lowercased and
  whose operand tokens are literal values / child identities.  Two identity
  strings are equal exactly when these canonical values are equal.

* Python `str.lower` is modelled by `pyLower` (ASCII case folding; class
  names produced by `funcname` are ASCII identifiers).
-/

/-- Literal (non-`Expr`) operand values: the modelled fragment of Python
values, with `bool` kept distinct from `int` so that Python's
`isinstance(operand, type(old))` subtyping (`bool <: int`) and cross-type
equality (`True == 1`) are represented faithfully. -/
inductive Lit where
  | int (n : Int)
  | bool (b : Bool)
  | str (s : String)
  deriving DecidableEq, Repr

/-- Python `isinstance(v, bool)`. -/
def Lit.isBool : Lit → Bool
  | .bool _ => true
  | _ => false

/-- Python `isinstance(v, int)` — `True` and `False` are `int` instances. -/
def Lit.isInt : Lit → Bool
  | .int _ => true
  | .bool _ => true
  | _ => false

/-- Python `isinstance(v, str)`. -/
def Lit.isStr : Lit → Bool
  | .str _ => true
  | _ => false

/-- Numeric value of an `int`-like literal (Python `True == 1`, `False == 0`). -/
def Lit.asInt : Lit → Int
  | .int n => n
  | .bool b => if b then 1 else 0
  | .str _ => 0

/-- Python `==` on the modelled literal universe: numeric cross-equality
between `int` and `bool`, string equality between `str`, no cross-kind
equality otherwise. -/
def litPyEq (a b : Lit) : Bool :=
  match a, b with
  | .str s, .str t => s == t
  | .str _, _ => false
  | _, .str _ => false
  | a, b => a.asInt == b.asInt

/-- Python `isinstance(operand, type(old))` on the modelled universe:
`type(old)` is `int`, `bool` or `str`, and `bool` is a subclass of `int`. -/
def litIsinstance (operand old : Lit) : Bool :=
  match old with
  | .int _ => operand.isInt
  | .bool _ => operand.isBool
  | .str _ => operand.isStr

/-- ASCII lower-casing of one character (`A`-`Z` shifted by 32). -/
def charLower (c : Char) : Char :=
  if 65 <= c.toNat && c.toNat <= 90 then Char.ofNat (c.toNat + 32) else c

/-- Model of Python `str.lower()` for the ASCII class names produced by
`funcname` (`Expr._name`, `_core.py` line 396). -/
def pyLower (s : String) : String := ⟨s.data.map charLower⟩

/-- The expression IR (`_core.py`, class `Expr`): a node is a type tag with
an ordered operand list; an operand is a node or a literal. -/
inductive Expr where
  | lit (v : Lit)
  | node (tag : String) (operands : List Expr)
  deriving Repr

mutual
/-- Boolean structural equality on `Expr` (used to build `DecidableEq`). -/
def Expr.beq : Expr → Expr → Bool
  | .lit v, .lit w => v == w
  | .node t ops, .node s ops2 => t == s && beqExprList ops ops2
  | _, _ => false
  termination_by structural a => a
/-- Pointwise `Expr.beq` on operand lists. -/
def beqExprList : List Expr → List Expr → Bool
  | [], [] => true
  | a :: as, b :: bs => Expr.beq a b && beqExprList as bs
  | _, _ => false
  termination_by structural a => a
end

mutual
theorem Expr.beq_iff : ∀ a b : Expr, Expr.beq a b = true ↔ a = b
  | .lit v, .lit w => by simp [Expr.beq]
  | .lit _, .node _ _ => by simp [Expr.beq]
  | .node _ _, .lit _ => by simp [Expr.beq]
  | .node t ops, .node s ops2 => by
      simp [Expr.beq, beqExprList_iff ops ops2]
theorem beqExprList_iff : ∀ a b : List Expr, beqExprList a b = true ↔ a = b
  | [], [] => by simp [beqExprList]
  | [], _ :: _ => by simp [beqExprList]
  | _ :: _, [] => by simp [beqExprList]
  | a :: as, b :: bs => by
      simp [beqExprList, Expr.beq_iff a b, beqExprList_iff as bs]
end

instance : DecidableEq Expr := fun a b =>
  decidable_of_iff (Expr.beq a b = true) (Expr.beq_iff a b)

mutual
/-- Number of constructors in an expression tree (a termination measure). -/
def Expr.size : Expr → Nat
  | .lit _ => 1
  | .node _ ops => 1 + sizeList ops
  termination_by structural a => a
/-- Total `Expr.size` of a list of operands. -/
def sizeList : List Expr → Nat
  | [] => 0
  | o :: rest => Expr.size o + sizeList rest
  termination_by structural a => a
end

mutual
/-- `Expr._name` (`_core.py` lines 393-397):
`funcname(type(self)).lower() + "-" + _tokenize_deterministic(*self.operands)`.
The deterministic hash is idealised as injective, so the identity is
represented by its canonical pre-image: the lowercased type tag paired with
the operand token tuple, in which a literal operand contributes its value
and a node operand contributes its own (memoized) identity. -/
def Expr.name : Expr → Expr
  | .lit v => .lit v
  | .node t ops => .node (pyLower t) (nameList ops)
  termination_by structural a => a
/-- Operand token tuple of `_tokenize_deterministic(*operands)`: literal
operands by value, node operands by their identity. -/
def nameList : List Expr → List Expr
  | [] => []
  | o :: rest => Expr.name o :: nameList rest
  termination_by structural a => a
end

/-- Python `isinstance(operand, Expr)`: is this operand an expression node? -/
def Expr.isNode : Expr → Bool
  | .lit _ => false
  | .node _ _ => true

/-- The operand list of a node (empty for a literal). -/
def Expr.operands : Expr → List Expr
  | .lit _ => []
  | .node _ ops => ops

/-- `Expr.dependencies` (`_core.py` lines 139-141): the subsequence of
operands that are themselves expression nodes, order preserved. -/
def Expr.dependencies (e : Expr) : List Expr :=
  e.operands.filter Expr.isNode

example : Expr.name (.node "Add" [.lit (.int 3), .node "B" []])
    = .node "add" [.lit (.int 3), .node "b" []] := by decide
example : Expr.dependencies (.node "Add" [.lit (.int 3), .node "B" []])
    = [.node "B" []] := by decide

/-!
### SubstitutionEngine (`Expr.substitute`, `_core.py` lines 458-524)

`substitute(old, new)` has two modes selected by `isinstance(old, Expr)`:

* node substitution (`old` is a node): a visited node whose identity equals
  `old`'s identity is replaced by `new` wholesale (no recursion inside);
  otherwise node operands are substituted recursively and the node is
  recreated only if some operand's identity changed (`update` flag);
* literal substitution (`old` is not a node): a `bool` target raises
  `TypeError`; an operand is replaced when it is not a `bool`, is an
  instance of `type(old)`, and compares `== old`.

The `Fused` list-operand special case (lines 496-510) is outside the
modelled fragment (no list-valued operands).
-/

mutual
/-- Node-substitution mode of `Expr.substitute` (lines 479-482, 488-495,
518-524): replace every subtree whose identity equals `old`'s identity by
`new`; rebuild a node only when some operand actually changed identity. -/
def Expr.substNode (old new : Expr) : Expr → Expr
  | .lit v => .lit v
  | .node t ops =>
      if (Expr.node t ops).name = old.name then new
      else
        let r := substNodeList old new ops
        if r.2 then .node t r.1 else .node t ops
  termination_by structural a => a
/-- The operand loop of node-substitution: returns the new operand list and
the `update` flag (`operand._name != val._name` for some operand). -/
def substNodeList (old new : Expr) : List Expr → List Expr × Bool
  | [] => ([], false)
  | .lit v :: rest =>
      let r := substNodeList old new rest
      (.lit v :: r.1, r.2)
  | .node t' ops' :: rest =>
      let r := substNodeList old new rest
      let val := Expr.substNode old new (.node t' ops')
      (val :: r.1, (decide (val.name ≠ (Expr.node t' ops').name)) || r.2)
  termination_by structural a => a
end

/-- The literal-replacement test of `Expr.substitute` (lines 511-516):
`not isinstance(operand, bool) and isinstance(operand, type(old)) and
operand == old`. -/
def litMatches (old v : Lit) : Bool :=
  !v.isBool && litIsinstance v old && litPyEq v old

mutual
/-- Literal-substitution mode of `Expr.substitute` (lines 483-486, 488-495,
511-524), for a non-`bool` literal target `old`. -/
def Expr.substLit (old : Lit) (new : Expr) : Expr → Expr
  | .lit v => .lit v
  | .node t ops =>
      let r := substLitList old new ops
      if r.2 then .node t r.1 else .node t ops
  termination_by structural a => a
/-- The operand loop of literal-substitution: node operands recurse, literal
operands matching `litMatches` are replaced by `new` (setting `update`). -/
def substLitList (old : Lit) (new : Expr) : List Expr → List Expr × Bool
  | [] => ([], false)
  | .lit v :: rest =>
      let r := substLitList old new rest
      if litMatches old v then (new :: r.1, true) else (.lit v :: r.1, r.2)
  | .node t' ops' :: rest =>
      let r := substLitList old new rest
      let val := Expr.substLit old new (.node t' ops')
      (val :: r.1, (decide (val.name ≠ (Expr.node t' ops').name)) || r.2)
  termination_by structural a => a
end

/-- The `TypeError` message of `Expr.substitute` (line 486). -/
def substituteBoolMsg : String := "Arguments to `substitute` cannot be bool."

/-- `Expr.substitute` (lines 458-524): mode dispatch on `isinstance(old,
Expr)` and the `bool`-target `TypeError`. -/
def Expr.substitute (old new e : Expr) : Except String Expr :=
  match old with
  | .node t ops => .ok (Expr.substNode (.node t ops) new e)
  | .lit v =>
      if v.isBool then .error substituteBoolMsg
      else .ok (Expr.substLit v new e)

mutual
/-- Modelled from the spec (§4.6), for comparison with `Expr.substLit`:
"replace every operand that is an exact-type, exact-value match for a
target literal", rebuilding unconditionally. -/
def specSubstLit (old : Lit) (new : Expr) : Expr → Expr
  | .lit v => .lit v
  | .node t ops => .node t (specSubstLitList old new ops)
  termination_by structural a => a
/-- Modelled from the spec (§4.6): operand-wise exact-match replacement. -/
def specSubstLitList (old : Lit) (new : Expr) : List Expr → List Expr
  | [] => []
  | .lit v :: rest =>
      (if v = old then new else .lit v) :: specSubstLitList old new rest
  | .node t' ops' :: rest =>
      specSubstLit old new (.node t' ops') :: specSubstLitList old new rest
  termination_by structural a => a
end

mutual
/-- Does some subtree of `e` (including `e` itself) have identity `n`?
(The match condition of node-substitution.) -/
def containsName (n : Expr) : Expr → Bool
  | .lit _ => false
  | .node t ops =>
      (Expr.name (.node t ops) = n) || containsNameList n ops
  termination_by structural a => a
/-- `containsName` over an operand list. -/
def containsNameList (n : Expr) : List Expr → Bool
  | [] => false
  | o :: rest => containsName n o || containsNameList n rest
  termination_by structural a => a
end

mutual
/-- Does some node in `e` carry a literal operand matching `old` under the
literal-replacement test? (Whether literal substitution would change `e`.) -/
def containsLitMatch (old : Lit) : Expr → Bool
  | .lit _ => false
  | .node _ ops => containsLitMatchList old ops
  termination_by structural a => a
/-- `containsLitMatch` over an operand list. -/
def containsLitMatchList (old : Lit) : List Expr → Bool
  | [] => false
  | .lit v :: rest => litMatches old v || containsLitMatchList old rest
  | .node t' ops' :: rest =>
      containsLitMatch old (.node t' ops') || containsLitMatchList old rest
  termination_by structural a => a
end

mutual
/-- Does a subtree with identity `bn` occur in `e` outside every subtree of
identity `an`?  ("`B` occurs independently in `T`": an occurrence of `B`
not contained in an occurrence of `A`; node-substitution of `A` never
descends below a matching subtree.) -/
def occursOutside (bn an : Expr) : Expr → Bool
  | .lit _ => false
  | .node t ops =>
      if Expr.name (.node t ops) = an then false
      else if Expr.name (.node t ops) = bn then true
      else occursOutsideList bn an ops
  termination_by structural a => a
/-- `occursOutside` over an operand list. -/
def occursOutsideList (bn an : Expr) : List Expr → Bool
  | [] => false
  | o :: rest => occursOutside bn an o || occursOutsideList bn an rest
  termination_by structural a => a
end

example :
    Expr.substNode (.node "B" []) (.node "C" [])
      (.node "Add" [.node "B" [], .lit (.int 1)])
    = .node "Add" [.node "C" [], .lit (.int 1)] := by decide
example :
    Expr.substLit (.int 10) (.lit (.int 20)) (.node "Add" [.lit (.int 10)])
    = .node "Add" [.lit (.int 20)] := by decide
example : litMatches (.int 1) (.bool true) = false := by decide
example : litPyEq (.bool true) (.int 1) = true := by decide

/-!
### RewriteEngine (`Expr.rewrite`, `_core.py` lines 196-260) and the
fixed-point drivers (`simplify_once`/`simplify`, lines 262-329;
`lower_once`/`lower_completely`, lines 337-388)

Per-type hooks (`_{kind}_down`, `_{kind}_up`, `_simplify_down`,
`_simplify_up`, `_lower`) are methods of `Expr` subclasses; the embedding
passes them as function parameters.  A hook returns `None` (no change), an
`Expr` (proposed replacement), or any other value (terminal short-circuit:
the whole rewrite returns that value).  An absent hook behaves exactly like
one returning `None` and is folded into `HookOut.none`.

The Python loops are unbounded (`while True`); the spec (§7) notes the
reference design does not bound rewrite iteration.  The embedding adds an
explicit fuel argument consumed once per loop iteration / recursion level;
exhaustion is the distinguished error `RewriteErr.fuel`.  Accessing
`._name` on a non-`Expr` value (which in Python raises `AttributeError`)
is the error `RewriteErr.attrErr`.
-/

instance {ε α : Type} [DecidableEq ε] [DecidableEq α] :
    DecidableEq (Except ε α) := fun a b =>
  match a, b with
  | .error x, .error y =>
      if h : x = y then .isTrue (by rw [h]) else .isFalse (by simp [h])
  | .ok x, .ok y =>
      if h : x = y then .isTrue (by rw [h]) else .isFalse (by simp [h])
  | .error _, .ok _ => .isFalse (by simp)
  | .ok _, .error _ => .isFalse (by simp)

/-- Result of invoking a rewrite hook (`None` / an `Expr` / a terminal
non-`Expr` value). -/
inductive HookOut where
  | none
  | node (e : Expr)
  | term (v : Lit)

/-- Errors of the fuelled rewrite loops: fuel exhaustion (the Python loop
would still be running) or an `AttributeError` from `._name` on a
non-`Expr`. -/
inductive RewriteErr where
  | fuel
  | attrErr
  deriving DecidableEq, Repr

/-- Outcome of one pass over the dependencies offering each the chance to
rewrite the parent. -/
inductive UpResult where
  | noChange
  | changed (e : Expr)
  | terminal (v : Lit)
  deriving Repr

/-- The upward-hook loop shared by `Expr.rewrite` (lines 226-237) and
`Expr.simplify_once` (lines 290-300): each child of `expr`, in dependency
(operand) order, is offered the chance to rewrite `expr`; `None` or a
proposal with unchanged identity passes to the next child; the first child
whose proposal has a different identity wins (the loop breaks); a non-`Expr`
hook result is terminal. -/
def upPhase (up : Expr → Expr → HookOut) (expr : Expr) : List Expr → UpResult
  | [] => .noChange
  | c :: rest =>
      match up c expr with
      | .none => upPhase up expr rest
      | .term v => .terminal v
      | .node out =>
          if out.name = expr.name then upPhase up expr rest
          else .changed out

/-- The child-rewriting loop shared by the drivers (lines 242-252, 302-312,
347-357): node operands are rewritten by `rec` (the driver at the next
fuel level), literal operands pass through; `changed` records whether some
operand's identity changed.  A child result that is not an `Expr` would
make `new._name` raise, modelled as `attrErr`. -/
def rewriteChildren (rec : Expr → Except RewriteErr (Sum Lit Expr)) :
    List Expr → Except RewriteErr (List Expr × Bool)
  | [] => .ok ([], false)
  | o :: rest => do
      let (lst, changed) ← rewriteChildren rec rest
      match o with
      | .lit v => .ok (Expr.lit v :: lst, changed)
      | .node t' ops' =>
          match ← rec (.node t' ops') with
          | .inl _ => .error .attrErr
          | .inr val =>
              .ok (val :: lst,
                (decide (val.name ≠ (Expr.node t' ops').name)) || changed)

/-- `Expr.rewrite` (lines 196-260): the generic fixed-point driver for a
rewrite kind.  One `while True` iteration: (a) the downward hook may
replace the node (identity change restarts the loop) or short-circuit with
a terminal value; (b) each dependency in order may rewrite the parent
(`upPhase`); a change restarts the loop; (c) all node operands are
rewritten recursively; if any identity changed the node is recreated and
the loop restarts, otherwise the loop ends. -/
def Expr.rewrite (down : Expr → HookOut) (up : Expr → Expr → HookOut) :
    Nat → Expr → Except RewriteErr (Sum Lit Expr)
  | 0, _ => .error .fuel
  | f + 1, expr =>
      let d : Sum (Except RewriteErr (Sum Lit Expr)) Expr :=
        match down expr with
        | .term v => .inl (.ok (.inl v))
        | .node out =>
            if out.name = expr.name then .inr expr
            else .inl (Expr.rewrite down up f out)
        | .none => .inr expr
      match d with
      | .inl r => r
      | .inr e1 =>
          match upPhase up e1 e1.dependencies with
          | .terminal v => .ok (.inl v)
          | .changed out => Expr.rewrite down up f out
          | .noChange =>
              match e1 with
              | .lit v => .ok (.inr (.lit v))
              | .node t ops =>
                  match rewriteChildren (fun c => Expr.rewrite down up f c) ops with
                  | .error err => .error err
                  | .ok (newOps, changed) =>
                      if changed then Expr.rewrite down up f (.node t newOps)
                      else .ok (.inr (.node t ops))

/-- The dependents index: the (dependency identity, parent node) pairs in
the order `collect_depdendents` appends them (the weak references are
modelled as the parent nodes themselves; §Design notes: weak semantics is
unnecessary for the pass-scoped lifetime). -/
abbrev Deps := List (Expr × Expr)

/-- `collect_depdendents` (`_core.py` lines 712-725): stack-based traversal
deduplicated by a seen set of identities, recording for every dependency of
every first-seen node the pair (dependency identity, parent).  The Python
loop is iteration-bounded here by explicit fuel (exhaustion returns the
accumulator; the caller supplies fuel sufficient for every input). -/
def collectDepdendentsAux : Nat → List Expr → List Expr → Deps → Deps
  | 0, _, _, acc => acc
  | _ + 1, [], _, acc => acc
  | f + 1, e :: rest, seen, acc =>
      if e.name ∈ seen then collectDepdendentsAux f rest seen acc
      else
        collectDepdendentsAux f (e.dependencies.reverse ++ rest)
          (e.name :: seen)
          (acc ++ e.dependencies.map (fun d => (d.name, e)))

/-- `collect_depdendents` on a root expression, with fuel bounding the
number of loop iterations (at most one visit per distinct identity, each
pushing at most `size` dependencies, so `size * size + 1` suffices). -/
def collectDepdendents (e : Expr) : Deps :=
  collectDepdendentsAux (e.size * e.size + 1) [e] [] []

/-- `Expr.simplify_once` (`_core.py` lines 262-319): one simplification
pass.  The downward hook's proposal is adopted if its identity differs
(terminal values short-circuit); then the dependencies may rewrite the
parent (`upPhase`, threading the dependents index); then all node operands
are simplified recursively and the node is recreated if any identity
changed.  Unlike `Expr.rewrite` the body does not loop: each phase runs
once and the result is returned. -/
def Expr.simplifyOnce (sd : Expr → HookOut)
    (su : Expr → Deps → Expr → HookOut) (deps : Deps) :
    Nat → Expr → Except RewriteErr (Sum Lit Expr)
  | 0, _ => .error .fuel
  | f + 1, expr =>
      let s1 : Sum Lit Expr :=
        match sd expr with
        | .term v => .inl v
        | .node out => .inr (if out.name = expr.name then expr else out)
        | .none => .inr expr
      match s1 with
      | .inl v => .ok (.inl v)
      | .inr e1 =>
          let s2 : Sum Lit Expr :=
            match upPhase (fun c p => su c deps p) e1 e1.dependencies with
            | .terminal v => .inl v
            | .changed out => .inr out
            | .noChange => .inr e1
          match s2 with
          | .inl v => .ok (.inl v)
          | .inr e2 =>
              match e2 with
              | .lit v => .ok (.inr (.lit v))
              | .node t ops =>
                  match rewriteChildren
                      (fun c => Expr.simplifyOnce sd su deps f c) ops with
                  | .error err => .error err
                  | .ok (newOps, changed) =>
                      if changed then .ok (.inr (.node t newOps))
                      else .ok (.inr (.node t ops))

/-- `Expr.simplify` (`_core.py` lines 321-329): rebuild the dependents
index, run `simplify_once`, and repeat until the identity stops changing.
The outer fuel bounds outer iterations; `fi` is the fuel handed to every
`simplify_once` call (constant across iterations, as each Python call is
an independent full recursion). -/
def Expr.simplify (sd : Expr → HookOut)
    (su : Expr → Deps → Expr → HookOut) :
    Nat → Nat → Expr → Except RewriteErr Expr
  | 0, _, _ => .error .fuel
  | fo + 1, fi, expr =>
      let deps := collectDepdendents expr
      match Expr.simplifyOnce sd su deps fi expr with
      | .error err => .error err
      | .ok (.inl _) => .error .attrErr
      | .ok (.inr new) =>
          if new.name = expr.name then .ok expr
          else Expr.simplify sd su fo fi new

/-- `Expr.lower_once` (`_core.py` lines 337-362): the downward `_lower`
hook's result (or the node itself) is taken unconditionally — no identity
comparison — then all node operands of the result are lowered recursively
and the node is recreated if any identity changed. -/
def Expr.lowerOnce (lo : Expr → HookOut) :
    Nat → Expr → Except RewriteErr (Sum Lit Expr)
  | 0, _ => .error .fuel
  | f + 1, expr =>
      let s1 : Sum Lit Expr :=
        match lo expr with
        | .term v => .inl v
        | .node out => .inr out
        | .none => .inr expr
      match s1 with
      | .inl v => .ok (.inl v)
      | .inr out =>
          match out with
          | .lit v => .ok (.inr (.lit v))
          | .node t ops =>
              match rewriteChildren (fun c => Expr.lowerOnce lo f c) ops with
              | .error err => .error err
              | .ok (newOps, changed) =>
                  if changed then .ok (.inr (.node t newOps))
                  else .ok (.inr (.node t ops))

/-- `Expr.lower_completely` (`_core.py` lines 364-388): call `lower_once`
in a loop until the identity stops changing. -/
def Expr.lowerCompletely (lo : Expr → HookOut) :
    Nat → Nat → Expr → Except RewriteErr Expr
  | 0, _, _ => .error .fuel
  | fo + 1, fi, expr =>
      match Expr.lowerOnce lo fi expr with
      | .error err => .error err
      | .ok (.inl _) => .error .attrErr
      | .ok (.inr new) =>
          if new.name = expr.name then .ok expr
          else Expr.lowerCompletely lo fo fi new

/-!
### Materializer (`Expr.materialize`, `_core.py` lines 433-449) and
`Expr.walk` (lines 668-688)

Both run the same stack-based traversal deduplicated by a seen set of
identities: pop a node, skip it if its identity was already seen,
otherwise record it (`walk` yields the node, `materialize` appends its
layer) and push its dependencies.  The Python stack pops from the end;
the model keeps the top of the stack at the head, so pushing the
dependencies in order appends their reversal at the head.
-/

/-- Size of a stack of expressions (termination measure for the
traversals). -/
theorem sizeList_eq (l : List Expr) : sizeList l = (l.map Expr.size).sum := by
  induction l with
  | nil => rfl
  | cons o rest ih => simp [sizeList, ih]

theorem Expr.size_pos (e : Expr) : 1 ≤ e.size := by
  cases e with
  | lit v => exact Nat.le_refl 1
  | node t ops => exact Nat.le_add_right 1 (sizeList ops)

theorem sizeList_filter_le (p : Expr → Bool) (l : List Expr) :
    sizeList (l.filter p) ≤ sizeList l := by
  induction l with
  | nil => exact Nat.le_refl 0
  | cons o rest ih =>
      by_cases h : p o
      · simp only [List.filter_cons, h, if_pos, sizeList]
        exact Nat.add_le_add_left ih _
      · simp only [List.filter_cons, h, Bool.false_eq_true, if_false, sizeList]
        exact Nat.le_trans ih (Nat.le_add_left _ _)

theorem sizeList_dependencies_lt (e : Expr) :
    sizeList e.dependencies < e.size := by
  cases e with
  | lit v =>
      simp [Expr.dependencies, Expr.operands, List.filter, sizeList, Expr.size]
  | node t ops =>
      have h := sizeList_filter_le Expr.isNode ops
      simp only [Expr.dependencies, Expr.operands, Expr.size]
      omega

theorem sizeList_append (a b : List Expr) :
    sizeList (a ++ b) = sizeList a + sizeList b := by
  simp [sizeList_eq]

theorem sizeList_reverse (a : List Expr) :
    sizeList a.reverse = sizeList a := by
  simp [sizeList_eq, List.sum_reverse]

/-- The traversal loop of `Expr.walk` (`_core.py` lines 677-688): nodes in
first-visit order, deduplicated by the seen set of identities. -/
def walkAux : List Expr → List Expr → List Expr
  | [], _ => []
  | e :: rest, seen =>
      if e.name ∈ seen then walkAux rest seen
      else e :: walkAux (e.dependencies.reverse ++ rest) (e.name :: seen)
  termination_by stack _ => sizeList stack
  decreasing_by
  · simp only [sizeList]
    have := Expr.size_pos e
    omega
  · simp only [sizeList, sizeList_append, sizeList_reverse]
    have := sizeList_dependencies_lt e
    omega

/-- `Expr.walk` (`_core.py` lines 668-688). -/
def Expr.walk (e : Expr) : List Expr := walkAux [e] []

/-- The default `Expr._layer` (`_core.py` lines 171-194):
`{(self._name, i): self._task(i) for i in range(self.npartitions)}`, with
the per-type `npartitions` and `_task` passed as parameters. -/
def Expr.layer {τ : Type} (np : Expr → Nat) (task : Expr → Nat → τ)
    (e : Expr) : List ((Expr × Nat) × τ) :=
  (List.range (np e)).map (fun i => ((e.name, i), task e i))

/-- The traversal loop of `Expr.materialize` (`_core.py` lines 435-448):
the per-first-visit layers in emission order. -/
def materializeAux {τ : Type} (np : Expr → Nat) (task : Expr → Nat → τ) :
    List Expr → List Expr → List (List ((Expr × Nat) × τ))
  | [], _ => []
  | e :: rest, seen =>
      if e.name ∈ seen then materializeAux np task rest seen
      else
        Expr.layer np task e ::
          materializeAux np task (e.dependencies.reverse ++ rest)
            (e.name :: seen)
  termination_by stack _ => sizeList stack
  decreasing_by
  · simp only [sizeList]
    have := Expr.size_pos e
    omega
  · simp only [sizeList, sizeList_append, sizeList_reverse]
    have := sizeList_dependencies_lt e
    omega

/-- `toolz.merge(layers)` (`_core.py` line 449): the layers folded into one
flat mapping, later bindings overriding earlier ones (for an association
list, lookup takes the last binding of a key). -/
def mergeLayers {τ : Type} (ls : List (List ((Expr × Nat) × τ))) :
    List ((Expr × Nat) × τ) :=
  ls.foldl (fun acc l => acc ++ l) []

/-- `Expr.materialize` (`_core.py` lines 433-449). -/
def Expr.materialize {τ : Type} (np : Expr → Nat) (task : Expr → Nat → τ)
    (e : Expr) : List ((Expr × Nat) × τ) :=
  mergeLayers (materializeAux np task [e] [])

mutual
/-- All expression nodes of the tree rooted at `e` (the nodes the traversal
can reach), in depth-first pre-order, with repetitions. -/
def Expr.allNodes : Expr → List Expr
  | .lit _ => []
  | .node t ops => .node t ops :: allNodesList ops
  termination_by structural a => a
/-- `Expr.allNodes` over an operand list. -/
def allNodesList : List Expr → List Expr
  | [] => []
  | o :: rest => Expr.allNodes o ++ allNodesList rest
  termination_by structural a => a
end

/-!
### Node hashing and equality (`Expr.__hash__`, `_core.py` lines 114-115)

`Expr` defines `__hash__` as `hash(self._name)` and defines no `__eq__`;
a class inheriting `object.__eq__` compares by object identity.  A Python
object is therefore modelled as a value paired with its object id: two
objects may hold structurally identical expressions while having distinct
ids.
-/

/-- A Python `Expr` object: the expression value together with the object
id (`id(obj)`), which Python's default `object.__eq__` compares. -/
structure PyObj where
  oid : Nat
  expr : Expr
  deriving DecidableEq, Repr

/-- `Expr.__hash__` (`_core.py` lines 114-115): `hash(self._name)` — the
hash is a function of the identity alone, idealised injective (represented
by the identity itself). -/
def PyObj.hash (o : PyObj) : Expr := o.expr.name

/-- Python `==` on `Expr` objects: `_core.Expr` defines no `__eq__`, so the
inherited `object.__eq__` applies — reference equality, i.e. equality of
object ids. -/
def pyObjEq (a b : PyObj) : Bool := a.oid == b.oid

/-!
### Resample construction (`_resample.py` lines 184-263)

`Resampler.__init__` checks `obj.divisions[0] is None` and raises
`ValueError` before storing its arguments; `_single_agg` then builds the
`ResampleReduction` expression, whose `_lower` (lines 64-80) is what the
lowering pass would later invoke.  Divisions are modelled as the ordered
list of partition-boundary keys, `none` marking an unknown boundary.
-/

/-- A frame-producing collection as the resample API sees it: its
divisions (partition boundary keys, `none` when unknown). -/
structure Frame where
  divisions : List (Option Int)
  deriving DecidableEq, Repr

/-- The `ValueError` message of `Resampler.__init__`
(`_resample.py` lines 193-197). -/
def resampleMsg : String :=
  "Can only resample dataframes with known divisions\nSee https://docs.dask.org/en/latest/dataframe-design.html#partitions\nfor more information."

/-- The state stored by a successfully constructed `Resampler`
(`_resample.py` lines 199-201). -/
structure Resampler where
  obj : Frame
  rule : String
  deriving DecidableEq, Repr

/-- `Resampler.__init__` (`_resample.py` lines 191-201): raise `ValueError`
when the leading division is unknown, otherwise store the frame and rule. -/
def Resampler.init (obj : Frame) (rule : String) : Except String Resampler :=
  match obj.divisions.head? with
  | some none => .error resampleMsg
  | _ => .ok ⟨obj, rule⟩

/-!
### Claim theorems
-/

/-- C1: identity is deterministic and purely structural — two nodes with
the same type tag and operand tuples that agree tokenwise (literals by
value, nodes by their own identity, i.e. equal `nameList`) have equal
identities, and the identity is exactly the lowercased type tag joined
with the deterministic hash (token tuple) of the operands.  Identity is a
function of the node alone, hence independent of where the node occurs. -/
theorem identity_pure_structural (t1 t2 : String) (ops1 ops2 : List Expr)
    (ht : t1 = t2) (hops : nameList ops1 = nameList ops2) :
    Expr.name (.node t1 ops1) = Expr.name (.node t2 ops2)
    ∧ Expr.name (.node t1 ops1) = .node (pyLower t1) (nameList ops1) := by
  subst ht
  exact ⟨by simp [Expr.name, hops], rfl⟩

/-- Witness for C1 at concrete input: operand lists that differ as trees
(`B` vs `b`) but agree tokenwise give equal identities. -/
theorem identity_pure_structural_witness :
    nameList [Expr.node "B" [], Expr.lit (.int 1)]
      = nameList [Expr.node "b" [], Expr.lit (.int 1)]
    ∧ Expr.name (.node "Add" [.node "B" [], .lit (.int 1)])
      = Expr.name (.node "Add" [.node "b" [], .lit (.int 1)]) :=
  ⟨by decide,
   (identity_pure_structural "Add" "Add" _ _ rfl (by decide)).1⟩

/-- C6 counterexample: the claim "`a` equals `b` as a map key iff their
identity strings are equal, even when `a` and `b` are distinct objects"
fails at two distinct objects holding the same expression: their hashes
(identity strings) are equal, yet they are unequal as map keys, because
`_core.Expr` defines `__hash__` (lines 114-115) but no `__eq__`, so the
inherited `object.__eq__` compares object identity. -/
theorem keying_identity_counterexample :
    PyObj.hash ⟨0, .node "Add" []⟩ = PyObj.hash ⟨1, .node "Add" []⟩
    ∧ pyObjEq ⟨0, .node "Add" []⟩ ⟨1, .node "Add" []⟩ = false := by
  decide

/-- C6 amended: a node's hash is derived from its identity string
(`__hash__ = hash(self._name)`), but equality as a map key is object
identity — `a` equals `b` as a map key iff they are the same object,
regardless of identity strings. -/
theorem keying_hash_identity_eq_object (a b : PyObj) :
    PyObj.hash a = a.expr.name ∧ (pyObjEq a b = true ↔ a.oid = b.oid) :=
  ⟨rfl, by simp [pyObjEq]⟩

/-- C9: constructing a resample over a frame whose leading division is
unknown fails in `Resampler.__init__` with the `ValueError` naming known
divisions, and the failure pre-empts every later stage: any continuation
(building the `ResampleReduction` and lowering it) mapped over the
construction result still yields the same error, so no lowering step of
the resample reduction ever runs. -/
theorem resample_unknown_divisions_error (obj : Frame) (rule : String)
    (h : obj.divisions.head? = some none) :
    Resampler.init obj rule = .error resampleMsg
    ∧ ∀ (τ : Type) (lowerPipeline : Resampler → τ),
        (Resampler.init obj rule).map lowerPipeline
          = .error resampleMsg := by
  have hinit : Resampler.init obj rule = .error resampleMsg := by
    unfold Resampler.init
    rw [h]
  exact ⟨hinit, fun τ lp => by rw [hinit]; rfl⟩

/-- Witness for C9 at a concrete frame with unknown leading division. -/
theorem resample_unknown_divisions_error_witness :
    (Frame.mk [none, some 3]).divisions.head? = some none
    ∧ Resampler.init ⟨[none, some 3]⟩ "1h" = .error resampleMsg :=
  ⟨rfl, (resample_unknown_divisions_error ⟨[none, some 3]⟩ "1h" rfl).1⟩

/-- In the upward-hook loop, a prefix of children none of whom proposes an
identity change is skipped, and the first child proposing a change
determines the result whatever the remaining children are. -/
theorem upPhase_first_wins_aux (up : Expr → Expr → HookOut)
    (expr c out : Expr) (rest : List Expr)
    (hc : up c expr = .node out) (hne : out.name ≠ expr.name) :
    ∀ cs : List Expr,
      (∀ x ∈ cs, up x expr = .none ∨
        ∃ o, up x expr = .node o ∧ o.name = expr.name) →
      upPhase up expr (cs ++ c :: rest) = .changed out := by
  intro cs
  induction cs with
  | nil =>
      intro _
      simp only [List.nil_append, upPhase, hc]
      rw [if_neg hne]
  | cons x xs ih =>
      intro hcs
      have hx := hcs x (List.mem_cons_self x xs)
      have hxs : ∀ y ∈ xs, up y expr = .none ∨
          ∃ o, up y expr = .node o ∧ o.name = expr.name :=
        fun y hy => hcs y (List.mem_cons_of_mem x hy)
      rcases hx with hx | ⟨o, ho, hname⟩
      · simpa only [List.cons_append, upPhase, hx] using ih hxs
      · simp only [List.cons_append, upPhase, ho]
        rw [if_pos hname]
        exact ih hxs

/-- C3: in one round of the generic rewrite loop, the dependencies of the
current node are offered, in operand order, the chance to rewrite the
parent; with `cs ++ c :: rest` the dependency list, every hook in `cs`
proposing no change (absent/`None`, or a node of unchanged identity) and
`c`'s hook proposing a node of different identity, the round's result is
`c`'s proposal — and it is already determined by the hooks of `cs` and
`c`: any hook function agreeing with `up` on those children produces the
same result, so the dependencies after `c` are not consulted. -/
theorem rewrite_up_first_dependency_wins
    (up up2 : Expr → Expr → HookOut) (expr c out : Expr)
    (cs rest : List Expr)
    (hdeps : expr.dependencies = cs ++ c :: rest)
    (hcs : ∀ x ∈ cs, up x expr = .none ∨
      ∃ o, up x expr = .node o ∧ o.name = expr.name)
    (hc : up c expr = .node out) (hne : out.name ≠ expr.name)
    (hagree : ∀ x ∈ cs, up2 x expr = up x expr)
    (hagreec : up2 c expr = up c expr) :
    upPhase up expr expr.dependencies = .changed out
    ∧ upPhase up2 expr expr.dependencies = .changed out := by
  constructor
  · rw [hdeps]
    exact upPhase_first_wins_aux up expr c out rest hc hne cs hcs
  · rw [hdeps]
    refine upPhase_first_wins_aux up2 expr c out rest ?_ hne cs ?_
    · rw [hagreec, hc]
    · intro x hx
      rw [hagree x hx]
      exact hcs x hx

/-- An upward hook used by witnesses: the child `B` proposes replacing the
parent by `Q`, other children propose nothing. -/
def exUpHook : Expr → Expr → HookOut := fun c _ =>
  match c with
  | .node "B" [] => .node (.node "Q" [])
  | _ => .none

/-- Witness for C3 at a concrete parent with dependencies `[A, B]`: `A`
proposes no change, `B` proposes `Q`, and the round returns `Q`. -/
theorem rewrite_up_first_dependency_wins_witness :
    (Expr.node "P" [.node "A" [], .node "B" []]).dependencies
      = [Expr.node "A" []] ++ Expr.node "B" [] :: []
    ∧ upPhase exUpHook (.node "P" [.node "A" [], .node "B" []])
        (Expr.node "P" [.node "A" [], .node "B" []]).dependencies
      = .changed (.node "Q" []) :=
  ⟨by decide,
   (rewrite_up_first_dependency_wins exUpHook exUpHook
      (.node "P" [.node "A" [], .node "B" []])
      (.node "B" []) (.node "Q" []) [.node "A" []] []
      (by decide)
      (fun x hx => by
        have : x = Expr.node "A" [] := by simpa using hx
        subst this
        exact Or.inl rfl)
      rfl (by decide)
      (fun x _ => rfl) rfl).2⟩

/-- A successful `simplify` run lands on a fixed point: one further
`simplify_once` over the result (against its freshly rebuilt dependents
index) keeps its identity. -/
theorem simplify_ok_fix (sd : Expr → HookOut)
    (su : Expr → Deps → Expr → HookOut) (fi : Nat) :
    ∀ (fo : Nat) (T S : Expr), Expr.simplify sd su fo fi T = .ok S →
      ∃ new, Expr.simplifyOnce sd su (collectDepdendents S) fi S
          = .ok (.inr new) ∧ new.name = S.name := by
  intro fo
  induction fo with
  | zero => intro T S h; exact absurd h (by simp [Expr.simplify])
  | succ fo ih =>
      intro T S h
      simp only [Expr.simplify] at h
      rcases hk : Expr.simplifyOnce sd su (collectDepdendents T) fi T with
        err | v
      · rw [hk] at h; exact absurd h (by simp)
      · rcases v with v | new
        · rw [hk] at h; exact absurd h (by simp)
        · rw [hk] at h
          have h' : (if new.name = T.name then Except.ok T
              else Expr.simplify sd su fo fi new) = Except.ok S := h
          by_cases hname : new.name = T.name
          · rw [if_pos hname] at h'
            have hTS : T = S := by simpa using h'
            subst hTS
            exact ⟨new, hk, hname⟩
          · rw [if_neg hname] at h'
            exact ih new S h'

/-- A successful `lower_completely` run lands on a fixed point: one
further `lower_once` over the result keeps its identity. -/
theorem lowerCompletely_ok_fix (lo : Expr → HookOut) (fi : Nat) :
    ∀ (fo : Nat) (T L : Expr), Expr.lowerCompletely lo fo fi T = .ok L →
      ∃ new, Expr.lowerOnce lo fi L = .ok (.inr new)
          ∧ new.name = L.name := by
  intro fo
  induction fo with
  | zero => intro T L h; exact absurd h (by simp [Expr.lowerCompletely])
  | succ fo ih =>
      intro T L h
      simp only [Expr.lowerCompletely] at h
      rcases hk : Expr.lowerOnce lo fi T with err | v
      · rw [hk] at h; exact absurd h (by simp)
      · rcases v with v | new
        · rw [hk] at h; exact absurd h (by simp)
        · rw [hk] at h
          have h' : (if new.name = T.name then Except.ok T
              else Expr.lowerCompletely lo fo fi new) = Except.ok L := h
          by_cases hname : new.name = T.name
          · rw [if_pos hname] at h'
            have hTL : T = L := by simpa using h'
            subst hTL
            exact ⟨new, hk, hname⟩
          · rw [if_neg hname] at h'
            exact ih new L h'

/-- C4: simplification and lowering are idempotent with respect to
identity — if `simplify` converges on `T` with result `S`, then running
`simplify` on `S` (any positive outer fuel, same per-pass fuel) returns
`S` itself, so `simplify(simplify(T))` has the same identity as
`simplify(T)`; likewise `lower_completely`. -/
theorem simplify_lower_idempotent (sd : Expr → HookOut)
    (su : Expr → Deps → Expr → HookOut) (lo : Expr → HookOut)
    (fi fo fo' : Nat) (T S L : Expr) :
    (Expr.simplify sd su fo fi T = .ok S →
      Expr.simplify sd su (fo' + 1) fi S = .ok S)
    ∧ (Expr.lowerCompletely lo fo fi T = .ok L →
      Expr.lowerCompletely lo (fo' + 1) fi L = .ok L) := by
  constructor
  · intro h
    obtain ⟨new, hk, hname⟩ := simplify_ok_fix sd su fi fo T S h
    simp only [Expr.simplify, hk]
    rw [if_pos hname]
  · intro h
    obtain ⟨new, hk, hname⟩ := lowerCompletely_ok_fix lo fi fo T L h
    simp only [Expr.lowerCompletely, hk]
    rw [if_pos hname]

/-- A downward hook used by witnesses: rewrite the node tagged `A` to the
node tagged `B`, touch nothing else. -/
def exDownHook : Expr → HookOut := fun e =>
  match e with
  | .node "A" [] => .node (.node "B" [])
  | _ => .none

/-- An inert upward simplification hook used by witnesses. -/
def exNoneUpHook : Expr → Deps → Expr → HookOut := fun _ _ _ => .none

/-- Witness for C4 at a concrete run: `A` simplifies (and lowers) to `B`
in two outer rounds, and re-running either driver on `B` returns `B`. -/
theorem simplify_lower_idempotent_witness :
    Expr.simplify exDownHook exNoneUpHook 2 2 (.node "A" [])
      = .ok (.node "B" [])
    ∧ Expr.simplify exDownHook exNoneUpHook 1 2 (.node "B" [])
      = .ok (.node "B" [])
    ∧ Expr.lowerCompletely exDownHook 2 2 (.node "A" [])
      = .ok (.node "B" [])
    ∧ Expr.lowerCompletely exDownHook 1 2 (.node "B" [])
      = .ok (.node "B" []) :=
  ⟨by decide,
   (simplify_lower_idempotent exDownHook exNoneUpHook exDownHook 2 2 0
      (.node "A" []) (.node "B" []) (.node "B" [])).1 (by decide),
   by decide,
   (simplify_lower_idempotent exDownHook exNoneUpHook exDownHook 2 2 0
      (.node "A" []) (.node "B" []) (.node "B" [])).2 (by decide)⟩

/-- For a non-`bool` target, the literal-replacement test of `substitute`
holds exactly on operands equal to the target as values of the same type:
`bool` operands never match (first conjunct of the test), `int` matches
`int` of equal value, `str` matches `str` of equal value, and no cross-type
match survives `isinstance(operand, type(old))`. -/
theorem litMatches_iff (old v : Lit) (hold : old.isBool = false) :
    litMatches old v = true ↔ v = old := by
  cases old <;> cases v <;>
    simp_all [litMatches, Lit.isBool, Lit.isInt, Lit.isStr, litIsinstance,
      litPyEq, Lit.asInt]

/-- An expression has a literal identity exactly when it is that literal. -/
theorem name_eq_lit_iff (x : Expr) (v : Lit) :
    Expr.name x = .lit v ↔ x = .lit v := by
  cases x with
  | lit w => simp [Expr.name]
  | node t ops => simp [Expr.name]

mutual
/-- Literal substitution computes the spec-side exact-match replacement,
and it changes an expression's identity whenever it changes the
expression. -/
theorem substLit_spec_aux (old : Lit) (new : Expr)
    (hold : old.isBool = false) :
    ∀ e : Expr, Expr.substLit old new e = specSubstLit old new e
      ∧ (Expr.name (Expr.substLit old new e) = Expr.name e →
          Expr.substLit old new e = e)
  | .lit v => ⟨rfl, fun _ => rfl⟩
  | .node t ops => by
      obtain ⟨h1, h2, h3⟩ := substLitList_spec_aux old new hold ops
      constructor
      · simp only [Expr.substLit, specSubstLit]
        by_cases hf : (substLitList old new ops).2
        · rw [if_pos hf, h1]
        · rw [if_neg hf]
          rw [h2 (Bool.not_eq_true _ ▸ hf)] at h1
          rw [← h1]
      · intro hname
        simp only [Expr.substLit] at hname ⊢
        by_cases hf : (substLitList old new ops).2
        · rw [if_pos hf] at hname ⊢
          simp only [Expr.name, Expr.node.injEq] at hname
          rw [h3 hname.2]
        · rw [if_neg hf]
theorem substLitList_spec_aux (old : Lit) (new : Expr)
    (hold : old.isBool = false) :
    ∀ ops : List Expr,
      (substLitList old new ops).1 = specSubstLitList old new ops
      ∧ ((substLitList old new ops).2 = false →
          (substLitList old new ops).1 = ops)
      ∧ (nameList (substLitList old new ops).1 = nameList ops →
          (substLitList old new ops).1 = ops)
  | [] => ⟨rfl, fun _ => rfl, fun _ => rfl⟩
  | .lit v :: rest => by
      obtain ⟨ih1, ih2, ih3⟩ := substLitList_spec_aux old new hold rest
      by_cases hm : litMatches old v = true
      · have hveq : v = old := (litMatches_iff old v hold).mp hm
        have e1 : substLitList old new (.lit v :: rest)
            = (new :: (substLitList old new rest).1, true) := by
          simp [substLitList, hm]
        refine ⟨?_, ?_, ?_⟩
        · rw [e1]
          simp only [specSubstLitList, if_pos hveq, ih1]
        · intro hf
          rw [e1] at hf
          exact absurd hf (by simp)
        · intro hn
          rw [e1] at hn ⊢
          simp only [nameList, List.cons.injEq] at hn
          have hnew : new = .lit v := by
            have h0 := hn.1
            rw [show Expr.name (.lit v) = Expr.lit v from rfl] at h0
            exact (name_eq_lit_iff new v).mp h0
          rw [ih3 hn.2, hnew]
      · have hm' : litMatches old v = false := by
          simpa using hm
        have hvne : ¬(v = old) := fun hv => hm ((litMatches_iff old v hold).mpr hv)
        have e1 : substLitList old new (.lit v :: rest)
            = (.lit v :: (substLitList old new rest).1,
                (substLitList old new rest).2) := by
          simp [substLitList, hm']
        refine ⟨?_, ?_, ?_⟩
        · rw [e1]
          simp only [specSubstLitList, if_neg hvne, ih1]
        · intro hf
          rw [e1] at hf ⊢
          rw [ih2 hf]
        · intro hn
          rw [e1] at hn ⊢
          simp only [nameList, List.cons.injEq] at hn
          rw [ih3 hn.2]
  | .node t' ops' :: rest => by
      obtain ⟨ihn1, ihn2⟩ := substLit_spec_aux old new hold (.node t' ops')
      obtain ⟨ih1, ih2, ih3⟩ := substLitList_spec_aux old new hold rest
      refine ⟨?_, ?_, ?_⟩
      · simp only [substLitList, specSubstLitList, ihn1, ih1]
      · intro hf
        simp only [substLitList, Bool.or_eq_false_iff,
          decide_eq_false_iff_not, not_not] at hf
        simp only [substLitList, ihn2 hf.1, ih2 hf.2]
      · intro hn
        simp only [substLitList, nameList, List.cons.injEq] at hn ⊢
        rw [ihn2 hn.1, ih3 hn.2]
        exact ⟨rfl, rfl⟩
end

/-- C7: `substitute` raises `TypeError` for every `bool` target; for a
non-node, non-`bool` target it returns exactly the spec-side substitution
(`specSubstLit`) that replaces every exact-match operand, and the code's
operand-level replacement test agrees with exact-type, exact-value
equality on every operand. -/
theorem substitute_literal_semantics (b : Bool) (old : Lit) (new e : Expr)
    (hold : old.isBool = false) :
    Expr.substitute (.lit (.bool b)) new e = .error substituteBoolMsg
    ∧ Expr.substitute (.lit old) new e = .ok (specSubstLit old new e)
    ∧ (∀ v : Lit, litMatches old v = true ↔ v = old) := by
  refine ⟨rfl, ?_, fun v => litMatches_iff old v hold⟩
  simp only [Expr.substitute, hold, Bool.false_eq_true, if_false,
    (substLit_spec_aux old new hold e).1]

/-- Witness for C7 at concrete inputs: target `True` errors; target `10`
replaces the matching integer operand. -/
theorem substitute_literal_semantics_witness :
    Expr.substitute (.lit (.bool true)) (.lit (.int 20))
      (.node "Add" [.lit (.int 10)]) = .error substituteBoolMsg
    ∧ Expr.substitute (.lit (.int 10)) (.lit (.int 20))
        (.node "Add" [.lit (.int 10)])
      = .ok (specSubstLit (.int 10) (.lit (.int 20))
          (.node "Add" [.lit (.int 10)])) :=
  ⟨(substitute_literal_semantics true (.int 10) (.lit (.int 20))
      (.node "Add" [.lit (.int 10)]) rfl).1,
   (substitute_literal_semantics true (.int 10) (.lit (.int 20))
      (.node "Add" [.lit (.int 10)]) rfl).2.1⟩

/-- C10: for a non-`bool` literal target, a boolean operand is never
replaced — the replacement test fails on every `bool` — so a boolean
operand at the head of any operand list is carried through unchanged and
contributes no update; in particular Python-equality of the operand with
the target (`True == 1`) does not suffice, as the concrete pair
(target `1`, operand `True`) shows. -/
theorem substitute_preserves_bool_operands (old : Lit) (new : Expr)
    (b : Bool) (hold : old.isBool = false) :
    litMatches old (.bool b) = false
    ∧ (∀ ops : List Expr,
        (substLitList old new (.lit (.bool b) :: ops)).1
          = .lit (.bool b) :: (substLitList old new ops).1
        ∧ (substLitList old new (.lit (.bool b) :: ops)).2
          = (substLitList old new ops).2)
    ∧ litPyEq (.bool true) (.int 1) = true
    ∧ litMatches (.int 1) (.bool true) = false := by
  have hb : litMatches old (.bool b) = false := by
    simp [litMatches, Lit.isBool]
  refine ⟨hb, fun ops => ?_, by decide, by decide⟩
  constructor
  · simp [substLitList, hb]
  · simp [substLitList, hb]

/-- Witness for C10 at concrete input: target `1` does not replace the
boolean operand `True` even though `True == 1` in Python. -/
theorem substitute_preserves_bool_operands_witness :
    (substLitList (.int 1) (.lit (.int 7))
        [.lit (.bool true), .lit (.int 1)]).1
      = Expr.lit (.bool true) :: (substLitList (.int 1) (.lit (.int 7))
        [.lit (.int 1)]).1
    ∧ litMatches (.int 1) (.bool true) = false :=
  ⟨((substitute_preserves_bool_operands (.int 1) (.lit (.int 7)) true
      rfl).2.1 [.lit (.int 1)]).1,
   (substitute_preserves_bool_operands (.int 1) (.lit (.int 7)) true
      rfl).2.2.2⟩

mutual
/-- Node-substitution is the identity on a tree containing no subtree of
the target's identity. -/
theorem substNode_nomatch (old new : Expr) :
    ∀ e : Expr, containsName old.name e = false →
      Expr.substNode old new e = e
  | .lit v => fun _ => rfl
  | .node t ops => by
      intro h
      simp only [containsName, Bool.or_eq_false_iff,
        decide_eq_false_iff_not] at h
      have hl := substNodeList_nomatch old new ops h.2
      simp only [Expr.substNode, if_neg h.1, hl]
      simp
theorem substNodeList_nomatch (old new : Expr) :
    ∀ ops : List Expr, containsNameList old.name ops = false →
      substNodeList old new ops = (ops, false)
  | [] => fun _ => rfl
  | .lit v :: rest => by
      intro h
      simp only [containsNameList, containsName, Bool.false_or] at h
      simp only [substNodeList, substNodeList_nomatch old new rest h]
  | .node t' ops' :: rest => by
      intro h
      simp only [containsNameList, Bool.or_eq_false_iff] at h
      have hh := substNode_nomatch old new (.node t' ops') h.1
      simp only [substNodeList, substNodeList_nomatch old new rest h.2, hh]
      simp
end

mutual
/-- Literal substitution is the identity on a tree carrying no matching
literal operand. -/
theorem substLit_nomatch (old : Lit) (new : Expr) :
    ∀ e : Expr, containsLitMatch old e = false →
      Expr.substLit old new e = e
  | .lit v => fun _ => rfl
  | .node t ops => by
      intro h
      simp only [containsLitMatch] at h
      have hl := substLitList_nomatch old new ops h
      simp only [Expr.substLit, hl]
      simp
theorem substLitList_nomatch (old : Lit) (new : Expr) :
    ∀ ops : List Expr, containsLitMatchList old ops = false →
      substLitList old new ops = (ops, false)
  | [] => fun _ => rfl
  | .lit v :: rest => by
      intro h
      simp only [containsLitMatchList, Bool.or_eq_false_iff] at h
      simp only [substLitList, h.1, Bool.false_eq_true, if_false,
        substLitList_nomatch old new rest h.2]
  | .node t' ops' :: rest => by
      intro h
      simp only [containsLitMatchList, Bool.or_eq_false_iff] at h
      have hh := substLit_nomatch old new (.node t' ops') h.1
      simp only [substLitList, substLitList_nomatch old new rest h.2, hh]
      simp
end

/-- C8: substitution shares every unaffected subtree — on an expression in
which no replacement occurs (no subtree of the target's identity for
node-substitution; no matching literal operand for literal-substitution)
`substitute` returns the expression itself unchanged, hence with its
original identity.  Applied at each operand of a rebuilt ancestor this is
exactly the structural-sharing guarantee: only the ancestor chain
containing an actual change is recreated, and a substitution matching
nothing returns the original expression. -/
theorem substitute_structural_sharing (old new e : Expr) (v : Lit) :
    (containsName old.name e = false → Expr.substNode old new e = e)
    ∧ (containsLitMatch v e = false → Expr.substLit v new e = e) :=
  ⟨substNode_nomatch old new e, substLit_nomatch v new e⟩

/-- Witness for C8 at concrete inputs: substituting an absent node (`C`)
or an absent literal (`5`) leaves the expression untouched. -/
theorem substitute_structural_sharing_witness :
    containsName (Expr.node "C" []).name
        (.node "Add" [.node "B" [], .lit (.int 1)]) = false
    ∧ Expr.substNode (.node "C" []) (.node "D" [])
        (.node "Add" [.node "B" [], .lit (.int 1)])
      = .node "Add" [.node "B" [], .lit (.int 1)]
    ∧ Expr.substLit (.int 5) (.lit (.int 6))
        (.node "Add" [.node "B" [], .lit (.int 1)])
      = .node "Add" [.node "B" [], .lit (.int 1)] :=
  ⟨by decide,
   (substitute_structural_sharing (.node "C" []) (.node "D" [])
      (.node "Add" [.node "B" [], .lit (.int 1)]) (.int 5)).1 (by decide),
   (substitute_structural_sharing (.node "C" []) (.node "D" [])
      (.node "Add" [.node "B" [], .lit (.int 1)]) (.int 5)).2 (by decide)⟩

/-!
### Substitution round-trip (C5)

Supporting lemmas: the identity preserves tree size; node-substitution
keeps node-ness of the replacement mode; a substitution between
identically-named targets preserves identities; when the target and
replacement identities differ, substitution changes an identity whenever
it changes the tree, and any change embeds the replacement (a size bound).
-/

mutual
theorem Expr.size_name : ∀ e : Expr, (Expr.name e).size = e.size
  | .lit v => rfl
  | .node t ops => by
      simp only [Expr.name, Expr.size, sizeList_nameList ops]
theorem sizeList_nameList : ∀ l : List Expr, sizeList (nameList l) = sizeList l
  | [] => rfl
  | o :: rest => by
      simp only [nameList, sizeList, Expr.size_name o, sizeList_nameList rest]
end

/-- When the replacement is a node, node-substitution sends nodes to
nodes. -/
theorem substNode_isNode (old new : Expr) (hnew : new.isNode = true)
    (t : String) (ops : List Expr) :
    (Expr.substNode old new (.node t ops)).isNode = true := by
  simp only [Expr.substNode]
  by_cases h : (Expr.node t ops).name = old.name
  · rw [if_pos h]; exact hnew
  · rw [if_neg h]
    by_cases hf : (substNodeList old new ops).2
    · rw [if_pos hf]; rfl
    · rw [if_neg hf]; rfl

mutual
/-- Substituting between targets of equal identity never changes an
identity. -/
theorem substNode_name_eq (old new : Expr) (h : old.name = new.name) :
    ∀ e : Expr, (Expr.substNode old new e).name = e.name
  | .lit v => rfl
  | .node t ops => by
      by_cases h1 : (Expr.node t ops).name = old.name
      · simp only [Expr.substNode, if_pos h1]
        rw [← h, h1]
      · simp only [Expr.substNode, if_neg h1]
        by_cases hf : (substNodeList old new ops).2
        · rw [if_pos hf]
          simp only [Expr.name, substNodeList_name_eq old new h ops]
        · rw [if_neg hf]
theorem substNodeList_name_eq (old new : Expr) (h : old.name = new.name) :
    ∀ ops : List Expr,
      nameList (substNodeList old new ops).1 = nameList ops
  | [] => rfl
  | .lit v :: rest => by
      simp only [substNodeList, nameList,
        substNodeList_name_eq old new h rest]
  | .node t' ops' :: rest => by
      simp only [substNodeList, nameList,
        substNodeList_name_eq old new h rest,
        substNode_name_eq old new h (.node t' ops')]
end

mutual
/-- When target and replacement identities differ, node-substitution
changes the identity whenever it changes the tree. -/
theorem substNode_name_fix (old new : Expr) (hne : old.name ≠ new.name) :
    ∀ e : Expr, (Expr.substNode old new e).name = e.name →
      Expr.substNode old new e = e
  | .lit v => fun _ => rfl
  | .node t ops => by
      intro hname
      by_cases h1 : (Expr.node t ops).name = old.name
      · exfalso
        simp only [Expr.substNode, if_pos h1] at hname
        exact hne (h1 ▸ hname).symm
      · simp only [Expr.substNode, if_neg h1] at hname ⊢
        by_cases hf : (substNodeList old new ops).2
        · rw [if_pos hf] at hname ⊢
          simp only [Expr.name, Expr.node.injEq] at hname
          rw [(substNodeList_name_fix old new hne ops).1 hname.2]
        · rw [if_neg hf]
theorem substNodeList_name_fix (old new : Expr) (hne : old.name ≠ new.name) :
    ∀ ops : List Expr,
      (nameList (substNodeList old new ops).1 = nameList ops →
        (substNodeList old new ops).1 = ops)
      ∧ ((substNodeList old new ops).2 = false →
        (substNodeList old new ops).1 = ops)
  | [] => ⟨fun _ => rfl, fun _ => rfl⟩
  | .lit v :: rest => by
      obtain ⟨ih1, ih2⟩ := substNodeList_name_fix old new hne rest
      refine ⟨?_, ?_⟩
      · intro hn
        simp only [substNodeList, nameList, List.cons.injEq] at hn ⊢
        exact ⟨trivial, ih1 hn.2⟩
      · intro hf
        simp only [substNodeList] at hf ⊢
        rw [ih2 hf]
  | .node t' ops' :: rest => by
      obtain ⟨ih1, ih2⟩ := substNodeList_name_fix old new hne rest
      refine ⟨?_, ?_⟩
      · intro hn
        simp only [substNodeList, nameList, List.cons.injEq] at hn ⊢
        rw [substNode_name_fix old new hne (.node t' ops') hn.1, ih1 hn.2]
        exact ⟨rfl, rfl⟩
      · intro hf
        simp only [substNodeList, Bool.or_eq_false_iff,
          decide_eq_false_iff_not, not_not] at hf
        simp only [substNodeList,
          substNode_name_fix old new hne (.node t' ops') hf.1, ih2 hf.2]
end

mutual
/-- Node-substitution either leaves a tree unchanged or produces a tree at
least as large as the replacement (every change embeds the replacement). -/
theorem substNode_grow (old new : Expr) :
    ∀ e : Expr, Expr.substNode old new e = e
      ∨ new.size ≤ (Expr.substNode old new e).size
  | .lit v => Or.inl rfl
  | .node t ops => by
      by_cases h1 : (Expr.node t ops).name = old.name
      · simp only [Expr.substNode, if_pos h1]
        exact Or.inr (Nat.le_refl _)
      · simp only [Expr.substNode, if_neg h1]
        by_cases hf : (substNodeList old new ops).2
        · rw [if_pos hf]
          rcases substNodeList_grow old new ops with heq | hle
          · rw [heq]
            exact Or.inl rfl
          · refine Or.inr (Nat.le_trans hle ?_)
            simp only [Expr.size]
            omega
        · rw [if_neg hf]
          exact Or.inl rfl
theorem substNodeList_grow (old new : Expr) :
    ∀ ops : List Expr, (substNodeList old new ops).1 = ops
      ∨ new.size ≤ sizeList (substNodeList old new ops).1
  | [] => Or.inl rfl
  | .lit v :: rest => by
      rcases substNodeList_grow old new rest with heq | hle
      · exact Or.inl (by simp only [substNodeList, heq])
      · refine Or.inr ?_
        simp only [substNodeList, sizeList]
        omega
  | .node t' ops' :: rest => by
      rcases substNode_grow old new (.node t' ops') with heqn | hlen
      · rcases substNodeList_grow old new rest with heq | hle
        · exact Or.inl (by simp only [substNodeList, heqn, heq])
        · refine Or.inr ?_
          simp only [substNodeList, sizeList]
          omega
      · refine Or.inr ?_
        simp only [substNodeList, sizeList]
        have := (Expr.substNode old new (.node t' ops')).size
        omega
end

mutual
/-- Round trip of node-substitution on identities: substituting `A` by `B`
and then `B` by `A` restores every identity, provided `B`'s identity does
not occur in the tree outside occurrences of `A`. -/
theorem substNode_roundtrip_name (A B : Expr) (hne : A.name ≠ B.name)
    (hB : B.isNode = true) :
    ∀ e : Expr, occursOutside B.name A.name e = false →
      (Expr.substNode B A (Expr.substNode A B e)).name = e.name
  | .lit v => fun _ => rfl
  | .node t ops => by
      intro hav
      by_cases h1 : (Expr.node t ops).name = A.name
      · simp only [Expr.substNode, if_pos h1]
        cases hBc : B with
        | lit v => rw [hBc] at hB; simp [Expr.isNode] at hB
        | node tb opsb =>
            simp only [Expr.substNode, if_pos rfl]
            rw [← hBc]
            exact h1.symm
      · have hav' : ¬((Expr.node t ops).name = B.name)
            ∧ occursOutsideList B.name A.name ops = false := by
          simp only [occursOutside, if_neg h1] at hav
          by_cases h2 : (Expr.node t ops).name = B.name
          · rw [if_pos h2] at hav
            exact absurd hav (by simp)
          · rw [if_neg h2] at hav
            exact ⟨h2, hav⟩
        obtain ⟨h2, hlist⟩ := hav'
        have hSe : Expr.substNode A B (.node t ops)
            = .node t (substNodeList A B ops).1 := by
          simp only [Expr.substNode, if_neg h1]
          by_cases hf : (substNodeList A B ops).2
          · rw [if_pos hf]
          · rw [if_neg hf,
              (substNodeList_name_fix A B hne ops).2 (by simpa using hf)]
        rw [hSe]
        have htop : ¬((Expr.node t (substNodeList A B ops).1).name
            = B.name) := by
          rcases substNodeList_grow A B ops with heq | hle
          · rw [heq]
            exact h2
          · intro hcontra
            have hsz := congrArg Expr.size hcontra
            rw [Expr.size_name, Expr.size_name] at hsz
            simp only [Expr.size] at hsz
            omega
        have hR : Expr.substNode B A (.node t (substNodeList A B ops).1)
            = .node t (substNodeList B A (substNodeList A B ops).1).1 := by
          simp only [Expr.substNode, if_neg htop]
          by_cases hf : (substNodeList B A (substNodeList A B ops).1).2
          · rw [if_pos hf]
          · rw [if_neg hf, (substNodeList_name_fix B A (Ne.symm hne)
              (substNodeList A B ops).1).2 (by simpa using hf)]
        rw [hR]
        simp only [Expr.name, Expr.node.injEq]
        exact ⟨trivial, substNodeList_roundtrip_name A B hne hB ops hlist⟩
/-- Round trip of node-substitution over an operand list: identities are
restored tokenwise. -/
theorem substNodeList_roundtrip_name (A B : Expr) (hne : A.name ≠ B.name)
    (hB : B.isNode = true) :
    ∀ ops : List Expr, occursOutsideList B.name A.name ops = false →
      nameList (substNodeList B A (substNodeList A B ops).1).1
        = nameList ops
  | [] => fun _ => rfl
  | .lit v :: rest => by
      intro hav
      simp only [occursOutsideList, occursOutside, Bool.false_or] at hav
      simp only [substNodeList, nameList,
        substNodeList_roundtrip_name A B hne hB rest hav]
  | .node t' ops' :: rest => by
      intro hav
      simp only [occursOutsideList, Bool.or_eq_false_iff] at hav
      have hval := substNode_isNode A B hB t' ops'
      have hhead := substNode_roundtrip_name A B hne hB (.node t' ops')
        hav.1
      cases hval_eq : Expr.substNode A B (.node t' ops') with
      | lit v => rw [hval_eq] at hval; simp [Expr.isNode] at hval
      | node tv opsv =>
          rw [hval_eq] at hhead
          simp only [substNodeList, hval_eq, nameList, hhead,
            substNodeList_roundtrip_name A B hne hB rest hav.2]
end

/-- C5: substitution round-trip — for an expression `T` containing a node
`A`, and a node `B` that does not occur independently in `T` (no subtree
of `B`'s identity outside occurrences of `A`), substituting `A` by `B`
and then `B` by `A` in the result yields an expression whose identity
equals `T`'s original identity. -/
theorem substitute_roundtrip_identity (T A B : Expr)
    (hA : A.isNode = true) (hB : B.isNode = true)
    (hcont : containsName A.name T = true)
    (hout : occursOutside B.name A.name T = false) :
    (Expr.substNode B A (Expr.substNode A B T)).name = T.name := by
  by_cases hne : A.name = B.name
  · rw [substNode_name_eq B A hne.symm (Expr.substNode A B T),
      substNode_name_eq A B hne T]
  · exact substNode_roundtrip_name A B hne hB T hout

/-- Witness for C5 at concrete input: `T = P(A0, 1)` with `A = A0`,
`B = B0` (absent from `T`); the double substitution restores `T`'s
identity. -/
theorem substitute_roundtrip_identity_witness :
    containsName (Expr.node "A0" []).name
        (.node "P" [.node "A0" [], .lit (.int 1)]) = true
    ∧ occursOutside (Expr.node "B0" []).name (Expr.node "A0" []).name
        (.node "P" [.node "A0" [], .lit (.int 1)]) = false
    ∧ (Expr.substNode (.node "B0" []) (.node "A0" [])
          (Expr.substNode (.node "A0" []) (.node "B0" [])
            (.node "P" [.node "A0" [], .lit (.int 1)]))).name
      = (Expr.node "P" [.node "A0" [], .lit (.int 1)]).name :=
  ⟨by decide, by decide,
   substitute_roundtrip_identity
     (.node "P" [.node "A0" [], .lit (.int 1)])
     (.node "A0" []) (.node "B0" []) rfl rfl (by decide) (by decide)⟩

/-!
### Materialize deduplication (C2)

The traversal of `materialize` is the traversal of `walk` with the layer
of each first-seen node emitted in place of the node; the visited
identities are pairwise distinct (the seen set) and are exactly the
identities reachable from the root.  Reachability only depends on
identities: a canonical identity's dependencies are the identities of the
node's dependencies (`name_dependencies`), which is what makes skipping an
already-seen identity sound.
-/

theorem materializeAux_eq_walkAux {τ : Type} (np : Expr → Nat)
    (task : Expr → Nat → τ) :
    ∀ stack seen, materializeAux np task stack seen
      = (walkAux stack seen).map (Expr.layer np task) := by
  intro stack seen
  induction stack, seen using walkAux.induct with
  | case1 seen => simp [walkAux, materializeAux]
  | case2 e rest seen h ih =>
      rw [walkAux, materializeAux]
      simp only [if_pos h]
      exact ih
  | case3 e rest seen h ih =>
      rw [walkAux, materializeAux]
      simp only [if_neg h, List.map_cons]
      rw [ih]

theorem walkAux_names_nodup :
    ∀ stack seen, ((walkAux stack seen).map Expr.name).Nodup
      ∧ ∀ n ∈ (walkAux stack seen).map Expr.name, n ∉ seen := by
  intro stack seen
  induction stack, seen using walkAux.induct with
  | case1 seen => simp [walkAux]
  | case2 e rest seen h ih =>
      rw [walkAux]
      simp only [if_pos h]
      exact ih
  | case3 e rest seen h ih =>
      rw [walkAux]
      simp only [if_neg h, List.map_cons, List.nodup_cons]
      obtain ⟨ihnd, ihnot⟩ := ih
      refine ⟨⟨?_, ihnd⟩, ?_⟩
      · intro hmem
        exact (ihnot _ hmem) (List.mem_cons_self _ _)
      · intro n hn
        rcases List.mem_cons.mp hn with hn | hn
        · rw [hn]; exact h
        · intro hns
          exact (ihnot n hn) (List.mem_cons_of_mem _ hns)

/-- The identity map preserves node-ness. -/
theorem isNode_name (o : Expr) : (Expr.name o).isNode = o.isNode := by
  cases o <;> rfl

theorem nameList_filter_isNode : ∀ ops : List Expr,
    (nameList ops).filter Expr.isNode
      = (ops.filter Expr.isNode).map Expr.name := by
  intro ops
  induction ops with
  | nil => rfl
  | cons o rest ih =>
      simp only [nameList, List.filter_cons, isNode_name o]
      by_cases h : o.isNode
      · simp only [h, if_pos, List.map_cons, ih]
      · simp only [h, Bool.false_eq_true, if_false, ih]

/-- A canonical identity's dependencies are the identities of the node's
dependencies: reachability is a function of the identity alone. -/
theorem name_dependencies (x : Expr) :
    (Expr.name x).dependencies = x.dependencies.map Expr.name := by
  cases x with
  | lit v => rfl
  | node t ops =>
      simp only [Expr.name, Expr.dependencies, Expr.operands]
      exact nameList_filter_isNode ops

theorem mem_allNodesList : ∀ (ops : List Expr) (o : Expr), o ∈ ops →
    ∀ y ∈ Expr.allNodes o, y ∈ allNodesList ops := by
  intro ops
  induction ops with
  | nil => intro o ho; exact absurd ho (List.not_mem_nil o)
  | cons a rest ih =>
      intro o ho y hy
      simp only [allNodesList, List.mem_append]
      rcases List.mem_cons.mp ho with ho | ho
      · exact Or.inl (ho ▸ hy)
      · exact Or.inr (ih o ho y hy)

/-- The identities reachable from a dependency are reachable from the
node. -/
theorem allNodes_names_of_dep (e o : Expr) (ho : o ∈ e.dependencies) :
    ∀ n ∈ (Expr.allNodes o).map Expr.name,
      n ∈ (Expr.allNodes e).map Expr.name := by
  intro n hn
  cases e with
  | lit v =>
      exact absurd ho (by simp [Expr.dependencies, Expr.operands])
  | node t ops =>
      have hops : o ∈ ops :=
        (List.mem_filter.mp (by simpa [Expr.dependencies, Expr.operands]
          using ho)).1
      obtain ⟨y, hy, hyn⟩ := List.mem_map.mp hn
      refine List.mem_map.mpr ⟨y, ?_, hyn⟩
      simp only [Expr.allNodes]
      exact List.mem_cons_of_mem _ (mem_allNodesList ops o hops y hy)

/-- Every dependency is a node. -/
theorem dependencies_isNode (e x : Expr) (hx : x ∈ e.dependencies) :
    x.isNode = true :=
  (List.mem_filter.mp hx).2

/-- A node occurs among its own reachable nodes. -/
theorem self_mem_allNodes (e : Expr) (he : e.isNode = true) :
    Expr.name e ∈ (Expr.allNodes e).map Expr.name := by
  cases e with
  | lit v => simp [Expr.isNode] at he
  | node t ops =>
      simp only [Expr.allNodes, List.map_cons]
      exact List.mem_cons_self _ _

/-- Every identity visited by the traversal is reachable from some stack
entry. -/
theorem walkAux_sound :
    ∀ stack seen, (∀ x ∈ stack, x.isNode = true) →
      ∀ n ∈ (walkAux stack seen).map Expr.name,
        ∃ s ∈ stack, n ∈ (Expr.allNodes s).map Expr.name := by
  intro stack seen
  induction stack, seen using walkAux.induct with
  | case1 seen =>
      intro _ n hn
      simp [walkAux] at hn
  | case2 e rest seen h ih =>
      intro hstack n hn
      rw [walkAux] at hn
      simp only [if_pos h] at hn
      obtain ⟨s, hs, hns⟩ :=
        ih (fun x hx => hstack x (List.mem_cons_of_mem _ hx)) n hn
      exact ⟨s, List.mem_cons_of_mem _ hs, hns⟩
  | case3 e rest seen h ih =>
      intro hstack n hn
      rw [walkAux] at hn
      simp only [if_neg h, List.map_cons] at hn
      rcases List.mem_cons.mp hn with hn | hn
      · refine ⟨e, List.mem_cons_self _ _, ?_⟩
        rw [hn]
        exact self_mem_allNodes e (hstack e (List.mem_cons_self _ _))
      · have hstack' : ∀ x ∈ e.dependencies.reverse ++ rest,
            x.isNode = true := by
          intro x hx
          rcases List.mem_append.mp hx with hx | hx
          · exact dependencies_isNode e x (List.mem_reverse.mp hx)
          · exact hstack x (List.mem_cons_of_mem _ hx)
        obtain ⟨s, hs, hns⟩ := ih hstack' n hn
        rcases List.mem_append.mp hs with hs | hs
        · exact ⟨e, List.mem_cons_self _ _,
            allNodes_names_of_dep e s (List.mem_reverse.mp hs) n hns⟩
        · exact ⟨s, List.mem_cons_of_mem _ hs, hns⟩

/-- The identities visited by the traversal, together with the already
seen ones, are closed under identity-level dependencies, provided the
seen set was closed modulo the stack. -/
theorem walkAux_closed :
    ∀ stack seen,
      (∀ n ∈ seen, ∀ c ∈ Expr.dependencies n,
        c ∈ seen ∨ c ∈ stack.map Expr.name) →
      ∀ n, (n ∈ seen ∨ n ∈ (walkAux stack seen).map Expr.name) →
        ∀ c ∈ Expr.dependencies n,
          c ∈ seen ∨ c ∈ (walkAux stack seen).map Expr.name := by
  intro stack seen
  induction stack, seen using walkAux.induct with
  | case1 seen =>
      intro hInv n hn c hc
      simp only [walkAux, List.map_nil, List.not_mem_nil, or_false] at hn ⊢
      rcases hInv n hn c hc with hcs | hcs
      · exact hcs
      · exact absurd hcs (List.not_mem_nil c)
  | case2 e rest seen h ih =>
      intro hInv n hn c hc
      rw [walkAux]
      simp only [if_pos h]
      rw [walkAux] at hn
      simp only [if_pos h] at hn
      refine ih ?_ n hn c hc
      intro m hm d hd
      rcases hInv m hm d hd with hds | hds
      · exact Or.inl hds
      · simp only [List.map_cons, List.mem_cons] at hds
        rcases hds with hds | hds
        · exact Or.inl (hds ▸ h)
        · exact Or.inr hds
  | case3 e rest seen h ih =>
      intro hInv n hn c hc
      rw [walkAux]
      simp only [if_neg h, List.map_cons]
      rw [walkAux] at hn
      simp only [if_neg h, List.map_cons] at hn
      have hInv' : ∀ m ∈ e.name :: seen, ∀ d ∈ Expr.dependencies m,
          d ∈ e.name :: seen
          ∨ d ∈ (e.dependencies.reverse ++ rest).map Expr.name := by
        intro m hm d hd
        rcases List.mem_cons.mp hm with hm | hm
        · refine Or.inr ?_
          rw [hm, name_dependencies e] at hd
          obtain ⟨x, hx, hxd⟩ := List.mem_map.mp hd
          refine List.mem_map.mpr ⟨x, ?_, hxd⟩
          exact List.mem_append.mpr (Or.inl (List.mem_reverse.mpr hx))
        · rcases hInv m hm d hd with hds | hds
          · exact Or.inl (List.mem_cons_of_mem _ hds)
          · simp only [List.map_cons, List.mem_cons] at hds
            rcases hds with hds | hds
            · exact Or.inl (hds ▸ List.mem_cons_self _ _)
            · refine Or.inr (List.mem_map.mpr ?_)
              obtain ⟨x, hx, hxd⟩ := List.mem_map.mp hds
              exact ⟨x, List.mem_append.mpr (Or.inr hx), hxd⟩
      have hn' : n ∈ e.name :: seen
          ∨ n ∈ (walkAux (e.dependencies.reverse ++ rest)
              (e.name :: seen)).map Expr.name := by
        rcases hn with hn | hn
        · exact Or.inl (List.mem_cons_of_mem _ hn)
        · rcases List.mem_cons.mp hn with hn | hn
          · exact Or.inl (hn ▸ List.mem_cons_self _ _)
          · exact Or.inr hn
      have := ih hInv' n hn' c hc
      rcases this with hcs | hcs
      · rcases List.mem_cons.mp hcs with hcs | hcs
        · exact Or.inr (List.mem_cons.mpr (Or.inl hcs))
        · exact Or.inl hcs
      · exact Or.inr (List.mem_cons_of_mem _ hcs)

mutual
/-- Identities reachable from a node whose identity lies in a
dependency-closed set lie in that set. -/
theorem closed_reach (V : List Expr)
    (hV : ∀ n ∈ V, ∀ c ∈ Expr.dependencies n, c ∈ V) :
    ∀ x : Expr, Expr.name x ∈ V →
      ∀ m ∈ (Expr.allNodes x).map Expr.name, m ∈ V
  | .lit v => by
      intro _ m hm
      simp [Expr.allNodes] at hm
  | .node t ops => by
      intro hx m hm
      simp only [Expr.allNodes, List.map_cons, List.mem_cons] at hm
      rcases hm with hm | hm
      · exact hm ▸ hx
      · refine closed_reach_list V hV ops ?_ m hm
        intro o ho honode
        refine hV _ hx (Expr.name o) ?_
        rw [name_dependencies (.node t ops)]
        refine List.mem_map.mpr ⟨o, ?_, rfl⟩
        simp only [Expr.dependencies, Expr.operands]
        exact List.mem_filter.mpr ⟨ho, honode⟩
/-- `closed_reach` over an operand list. -/
theorem closed_reach_list (V : List Expr)
    (hV : ∀ n ∈ V, ∀ c ∈ Expr.dependencies n, c ∈ V) :
    ∀ ops : List Expr,
      (∀ o ∈ ops, o.isNode = true → Expr.name o ∈ V) →
      ∀ m ∈ (allNodesList ops).map Expr.name, m ∈ V
  | [] => by
      intro _ m hm
      simp [allNodesList] at hm
  | o :: rest => by
      intro hops m hm
      simp only [allNodesList, List.map_append, List.mem_append] at hm
      rcases hm with hm | hm
      · cases ho : o with
        | lit v =>
            rw [ho] at hm
            simp [Expr.allNodes] at hm
        | node t' ops' =>
            refine closed_reach V hV (.node t' ops') ?_ m (ho ▸ hm)
            exact ho ▸ hops o (List.mem_cons_self _ _) (by rw [ho]; rfl)
      · exact closed_reach_list V hV rest
          (fun x hx => hops x (List.mem_cons_of_mem _ hx)) m hm
end

/-- C2: materialization deduplicates by identity — the traversal of
`materialize` emits exactly the layers of the nodes `walk` visits (in
visit order), the visited identities are pairwise distinct, and they are
exactly the identities reachable in the expression DAG; hence each
distinct identity contributes its layer exactly once to the merged flat
mapping, no matter how many parents reference it. -/
theorem materialize_dedup {τ : Type} (np : Expr → Nat)
    (task : Expr → Nat → τ) (e : Expr) (he : e.isNode = true) :
    materializeAux np task [e] []
      = (Expr.walk e).map (Expr.layer np task)
    ∧ Expr.materialize np task e
      = mergeLayers ((Expr.walk e).map (Expr.layer np task))
    ∧ ((Expr.walk e).map Expr.name).Nodup
    ∧ ∀ n, n ∈ (Expr.walk e).map Expr.name
        ↔ n ∈ (Expr.allNodes e).map Expr.name := by
  have h1 : materializeAux np task [e] []
      = (Expr.walk e).map (Expr.layer np task) :=
    materializeAux_eq_walkAux np task [e] []
  refine ⟨h1, ?_, (walkAux_names_nodup [e] []).1, ?_⟩
  · show mergeLayers (materializeAux np task [e] []) = _
    rw [h1]
  · intro n
    constructor
    · intro hn
      obtain ⟨s, hs, hns⟩ := walkAux_sound [e] []
        (fun x hx => by
          rcases List.mem_cons.mp hx with hx | hx
          · exact hx ▸ he
          · exact absurd hx (List.not_mem_nil x)) n hn
      rcases List.mem_cons.mp hs with hs | hs
      · exact hs ▸ hns
      · exact absurd hs (List.not_mem_nil s)
    · intro hn
      have hroot : Expr.name e ∈ (Expr.walk e).map Expr.name := by
        show Expr.name e ∈ (walkAux [e] []).map Expr.name
        rw [walkAux]
        simp only [List.not_mem_nil, if_false, List.map_cons]
        exact List.mem_cons_self _ _
      have hclosed : ∀ m ∈ (Expr.walk e).map Expr.name,
          ∀ c ∈ Expr.dependencies m,
            c ∈ (Expr.walk e).map Expr.name := by
        intro m hm c hc
        have := walkAux_closed [e] []
          (fun x hx => absurd hx (List.not_mem_nil x)) m (Or.inr hm) c hc
        rcases this with hcs | hcs
        · exact absurd hcs (List.not_mem_nil c)
        · exact hcs
      exact closed_reach _ hclosed e hroot n hn

/-- Witness for C2 at a concrete input: a diamond DAG in which two parents
(`L`, `R`) reference the same subexpression (`S`); its identity is visited
once. -/
theorem materialize_dedup_witness :
    (Expr.node "P" [.node "L" [.node "S" []],
        .node "R" [.node "S" []]]).isNode = true
    ∧ ((Expr.walk (.node "P" [.node "L" [.node "S" []],
        .node "R" [.node "S" []]])).map Expr.name).Nodup :=
  ⟨rfl,
   (materialize_dedup (fun _ => 1) (fun _ i => i)
      (.node "P" [.node "L" [.node "S" []], .node "R" [.node "S" []]])
      rfl).2.2.1⟩
